import Mathlib

/-!
A shallow embedding of the lexical cursor in `src/parser.rs` of the
`adventofcode-2024` repository, together with proofs of the behavioural
properties stated in the design specification.

Modelling conventions:

* The byte source (`S : Iterator<Item = anyhow::Result<u8>>`) is a list of
  `Except String Nat` items: each step yields a byte or a read error, and the
  end of the list is source exhaustion.
* The `VecDeque<char>` lookahead buffer is a `List Char` held in source order:
  the head of the list is the *back* of the Rust deque (the next character to
  hand out); `push_front` in Rust appends at the tail of the list and
  `pop_back` removes the head.
* A Rust method that can panic is modelled as returning
  `Except AbortKind (result × Parser)`; `AbortKind.panicked msg` is the panic
  raised in `Parser::take_next` and `AbortKind.undefinedBehavior` marks the
  `unwrap_unchecked` in `Parser::integer` reaching its `Err` branch.
* The unbounded `while` loops (`skip_if_eq`, `skip_if`, and the digit loop in
  `integer`) are written with an explicit fuel argument; each successful
  iteration consumes one character, so fuel `size + 1` (one more than the
  number of characters still reachable) always suffices and the zero-fuel
  branch is unreachable.  The public wrappers pass exactly that fuel.
-/

/-- Ways a cursor operation can abort instead of returning: the panic raised
when the underlying source yields an error (`Parser::take_next`), or the
undefined behaviour of `unwrap_unchecked` reaching an `Err` (`Parser::integer`). -/
inductive AbortKind where
  | panicked (msg : String)
  | undefinedBehavior
deriving DecidableEq, Repr

instance decEqExcept {α β : Type} [DecidableEq α] [DecidableEq β] :
    DecidableEq (Except α β) := fun x y =>
  match x, y with
  | .ok a, .ok b =>
    if h : a = b then isTrue (by rw [h]) else isFalse (by simp [h])
  | .error a, .error b =>
    if h : a = b then isTrue (by rw [h]) else isFalse (by simp [h])
  | .ok _, .error _ => isFalse (by simp)
  | .error _, .ok _ => isFalse (by simp)

/-- The lexical cursor `Parser` from `src/parser.rs`: the byte source, the
deque of already-decoded unconsumed characters (in source order, head = next
to return), and the reusable string container filled by `peek_n`. -/
structure Parser where
  source : List (Except String Nat)
  peeked : List Char
  peeked_container : String
deriving DecidableEq, Repr

/-- `Parser::new`: empty lookahead buffer and container. -/
def Parser.new (source : List (Except String Nat)) : Parser :=
  { source := source, peeked := [], peeked_container := "" }

/-- The `parser_for!` macro of the unit tests: a parser whose source is the
(error-free) bytes of a string. -/
def parser_for (s : String) : Parser :=
  Parser.new (s.data.map (fun c => Except.ok c.toNat))

/-- The number of characters still reachable from a cursor state: buffered
plus source items. -/
def Parser.size (p : Parser) : Nat := p.peeked.length + p.source.length

/-- The observable remaining stream of a cursor state: buffered characters
first (in source order), then the undecoded source items, each decoded one
byte to one character (`u8 -> char` is `Char.ofNat`). -/
def Parser.obs (p : Parser) : List (Except String Char) :=
  p.peeked.map Except.ok ++ p.source.map (Except.map Char.ofNat)

/-- `Parser::take_next`: pull one item from the source; decode a byte with
`char::from` (one byte, one character) and panic if the source yields an
error. -/
def Parser.take_next (p : Parser) : Except AbortKind (Option Char × Parser) :=
  match p.source with
  | [] => .ok (none, p)
  | .ok b :: rest => .ok (some (Char.ofNat b), { p with source := rest })
  | .error e :: _ =>
      .error (.panicked ("source stream produced an error: " ++ e))

/-- `Parser::peek`: return the back of the deque if nonempty, otherwise pull
one character from the source, push it on the deque, and return it. -/
def Parser.peek (p : Parser) : Except AbortKind (Option Char × Parser) :=
  match p.peeked with
  | c :: _ => .ok (some c, p)
  | [] =>
    match p.take_next with
    | .error e => .error e
    | .ok (none, p') => .ok (none, p')
    | .ok (some c, p') => .ok (some c, { p' with peeked := [c] })

/-- `Parser::next`: pop the back of the deque, or pull straight from the
source when the deque is empty. -/
def Parser.next (p : Parser) : Except AbortKind (Option Char × Parser) :=
  match p.peeked with
  | c :: rest => .ok (some c, { p with peeked := rest })
  | [] => p.take_next

/-- `Parser::next_if`: peek, keep the character only if `f` holds of it, and
in that case pop it off the deque. -/
def Parser.next_if (p : Parser) (f : Char → Bool) :
    Except AbortKind (Option Char × Parser) :=
  match p.peek with
  | .error e => .error e
  | .ok (none, p') => .ok (none, p')
  | .ok (some c, p') =>
    if f c then
      match p'.peeked with
      | [] => .ok (none, p')
      | c' :: rest => .ok (some c', { p' with peeked := rest })
    else .ok (none, p')

/-- `Parser::next_if_eq`: like `next_if` with an equality test. -/
def Parser.next_if_eq (p : Parser) (c : Char) :
    Except AbortKind (Option Char × Parser) :=
  match p.peek with
  | .error e => .error e
  | .ok (none, p') => .ok (none, p')
  | .ok (some a, p') =>
    if a == c then
      match p'.peeked with
      | [] => .ok (none, p')
      | c' :: rest => .ok (some c', { p' with peeked := rest })
    else .ok (none, p')

/-- The loop body of `Parser::skip_if_eq` (`while self.next_if_eq(c).is_some()`),
with explicit fuel; fuel `size + 1` always suffices because every successful
iteration consumes one character. -/
def Parser.skipEqFuel (c : Char) : Nat → Parser → Except AbortKind Parser
  | 0, p => .ok p
  | f + 1, p =>
    match p.next_if_eq c with
    | .error e => .error e
    | .ok (none, p') => .ok p'
    | .ok (some _, p') => Parser.skipEqFuel c f p'

/-- `Parser::skip_if_eq`: eagerly consume all characters equal to `c`. -/
def Parser.skip_if_eq (p : Parser) (c : Char) : Except AbortKind Parser :=
  Parser.skipEqFuel c (p.size + 1) p

/-- The loop body of `Parser::skip_if` (`while self.next_if(&f).is_some()`),
with explicit fuel. -/
def Parser.skipIfFuel (f : Char → Bool) : Nat → Parser → Except AbortKind Parser
  | 0, p => .ok p
  | k + 1, p =>
    match p.next_if f with
    | .error e => .error e
    | .ok (none, p') => .ok p'
    | .ok (some _, p') => Parser.skipIfFuel f k p'

/-- `Parser::skip_if`: eagerly consume all characters satisfying `f`. -/
def Parser.skip_if (p : Parser) (f : Char → Bool) : Except AbortKind Parser :=
  Parser.skipIfFuel f (p.size + 1) p

/-- `Parser::skip`: call `next` exactly `n` times, discarding the results. -/
def Parser.skip (p : Parser) (n : Nat) : Except AbortKind Parser :=
  match n with
  | 0 => .ok p
  | m + 1 =>
    match p.next with
    | .error e => .error e
    | .ok (_, p') => p'.skip m

/-- The digit-accumulation loop of `Parser::integer`
(`while let Some(c) = self.next_if(|c| c.is_ascii_digit()) { s.push(c) }`),
with explicit fuel. -/
def Parser.digitsFuel : Nat → Parser → List Char →
    Except AbortKind (List Char × Parser)
  | 0, p, s => .ok (s, p)
  | f + 1, p, s =>
    match p.next_if (fun c => c.isDigit) with
    | .error e => .error e
    | .ok (none, p') => .ok (s, p')
    | .ok (some c, p') => Parser.digitsFuel f p' (s ++ [c])

/-- The digit value of a character list, as accumulated by Rust's
`i32::from_str` (`fold (10*acc + digit)`). -/
def digitsVal (ds : List Char) : Nat :=
  ds.foldl (fun a c => 10 * a + (c.toNat - 48)) 0

/-- Rust's `str::parse::<i32>` on a character list: an optional sign followed
by at least one ASCII digit, rejecting values outside `i32` range (overflow is
`Err`, never a wrap). -/
def parseI32 (s : List Char) : Option Int :=
  match s with
  | [] => none
  | c :: t =>
    if c = '-' then
      if t ≠ [] ∧ t.all (fun d => d.isDigit) then
        if digitsVal t ≤ 2147483648 then some (-(digitsVal t : Int)) else none
      else none
    else if c = '+' then
      if t ≠ [] ∧ t.all (fun d => d.isDigit) then
        if digitsVal t ≤ 2147483647 then some (digitsVal t : Int) else none
      else none
    else
      if (c :: t).all (fun d => d.isDigit) then
        if digitsVal (c :: t) ≤ 2147483647 then some (digitsVal (c :: t) : Int)
        else none
      else none

/-- `Parser::integer`: consume a digit or `-`, then eagerly consume digits,
then `unsafe { s.parse().unwrap_unchecked() }`; a failing parse is the
undefined behaviour of `unwrap_unchecked` on `Err`. -/
def Parser.integer (p : Parser) : Except AbortKind (Option Int × Parser) :=
  match p.next_if (fun c => c.isDigit || c == '-') with
  | .error e => .error e
  | .ok (none, p') => .ok (none, p')
  | .ok (some c, p') =>
    match Parser.digitsFuel (p'.size + 1) p' [c] with
    | .error e => .error e
    | .ok (s, p'') =>
      match parseI32 s with
      | some v => .ok (some v, p'')
      | none => .error .undefinedBehavior

/-- `Parser::next_integer`: skip spaces, then `integer`. -/
def Parser.next_integer (p : Parser) : Except AbortKind (Option Int × Parser) :=
  match p.skip_if_eq ' ' with
  | .error e => .error e
  | .ok p' => p'.integer

/-- `Parser::take_newline`: skip spaces, then consume exactly one newline. -/
def Parser.take_newline (p : Parser) : Except AbortKind (Option Unit × Parser) :=
  match p.skip_if_eq ' ' with
  | .error e => .error e
  | .ok p' =>
    match p'.next_if_eq '\n' with
    | .error e => .error e
    | .ok (r, p'') => .ok (r.map (fun _ => ()), p'')

/-- `Parser::eof`: skip spaces, then succeed only if `peek` yields nothing. -/
def Parser.eof (p : Parser) : Except AbortKind (Option Unit × Parser) :=
  match p.skip_if_eq ' ' with
  | .error e => .error e
  | .ok p' =>
    match p'.peek with
    | .error e => .error e
    | .ok (none, p'') => .ok (some (), p'')
    | .ok (some _, p'') => .ok (none, p'')

/-- The `for` loop of `Parser::peek_n` that pre-fetches up to `k` more
characters, breaking at source exhaustion (`push_front` appends at the tail of
our source-ordered list). -/
def Parser.fillPeeked : Parser → Nat → Except AbortKind Parser
  | p, 0 => .ok p
  | p, k + 1 =>
    match p.take_next with
    | .error e => .error e
    | .ok (none, p') => .ok p'
    | .ok (some c, p') =>
        Parser.fillPeeked { p' with peeked := p'.peeked ++ [c] } k

/-- `Parser::peek_n`: ensure `n` characters are buffered (stopping early at
exhaustion), then rebuild the reusable container from the first `n` buffered
characters and return it. -/
def Parser.peek_n (p : Parser) (n : Nat) : Except AbortKind (String × Parser) :=
  match p.fillPeeked (n - p.peeked.length) with
  | .error e => .error e
  | .ok p' =>
    .ok (String.mk (p'.peeked.take n),
         { p' with peeked_container := String.mk (p'.peeked.take n) })

/-- UTF-8 encoding of one character, as `String::as_bytes` exposes it. -/
def utf8Bytes (c : Char) : List Nat :=
  if c.toNat < 128 then [c.toNat]
  else if c.toNat < 2048 then [192 + c.toNat / 64, 128 + c.toNat % 64]
  else if c.toNat < 65536 then
    [224 + c.toNat / 4096, 128 + c.toNat / 64 % 64, 128 + c.toNat % 64]
  else
    [240 + c.toNat / 262144, 128 + c.toNat / 4096 % 64, 128 + c.toNat / 64 % 64,
      128 + c.toNat % 64]

/-- The UTF-8 bytes of a character list (`str::as_bytes`). -/
def strBytes (cs : List Char) : List Nat := (cs.map utf8Bytes).flatten

/-- The `try_fold` inside `Parser::take_matching`: walk the candidate's bytes,
at step `i` comparing byte `i` of the candidate against byte `i` of
`peek_n(i+1).as_bytes()`; stop with `none` at the first mismatch, else return
the number of bytes matched. -/
def Parser.matchLoop (p : Parser) (i : Nat) :
    List Nat → Except AbortKind (Option Nat × Parser)
  | [] => .ok (some i, p)
  | b :: bs =>
    match p.peek_n (i + 1) with
    | .error e => .error e
    | .ok (s, p') =>
      if (strBytes s.data).get? i = some b then p'.matchLoop (i + 1) bs
      else .ok (none, p')

/-- `Parser::take_matching`: `find_map` over the candidates; on the first
candidate whose bytes all match, `skip` that many characters and return it. -/
def Parser.take_matching (p : Parser) :
    List String → Except AbortKind (Option String × Parser)
  | [] => .ok (none, p)
  | s :: rest =>
    match p.matchLoop 0 (strBytes s.data) with
    | .error e => .error e
    | .ok (none, p') => p'.take_matching rest
    | .ok (some n, p') =>
      match p'.skip n with
      | .error e => .error e
      | .ok p'' => .ok (some s, p'')

/-- Decidable test that the first list is an initial run of the second, used
by the spec-level reference matcher. -/
def leadsWith : List Char → List Char → Bool
  | [], _ => true
  | _ :: _, [] => false
  | a :: as, b :: bs => a == b && leadsWith as bs

/-- The reference matcher, following the spec's words for `take_matching`:
try each candidate literal in the given order and return the first whose
characters match the upcoming stream. -/
def specTakeMatching (cs : List Char) (v : List String) : Option String :=
  v.find? (fun s => leadsWith s.data cs)

/-- The number of characters the reference matcher consumes: the length of
the matched candidate, or zero when no candidate matches. -/
def specMatchedLen (cs : List Char) (v : List String) : Nat :=
  match specTakeMatching cs v with
  | some s => s.data.length
  | none => 0

/-- Repeated `next()` calls with a call budget: the characters produced (in
order) until the budget runs out or `next` yields `None`, together with the
final state.  This is the "call `next()` repeatedly" observer of the spec. -/
def Parser.nexts (p : Parser) (n : Nat) : Except AbortKind (List Char × Parser) :=
  match n with
  | 0 => .ok ([], p)
  | k + 1 =>
    match p.next with
    | .error e => .error e
    | .ok (none, p') => .ok ([], p')
    | .ok (some c, p') =>
      match p'.nexts k with
      | .error e => .error e
      | .ok (cs, q) => .ok (c :: cs, q)

/-! ## Basic characterisation lemmas for the primitives -/

theorem Parser.obs_length (p : Parser) : p.obs.length = p.size := by
  simp [Parser.obs, Parser.size]

theorem Parser.obs_eq_nil {p : Parser} (h : p.obs = []) :
    p.peeked = [] ∧ p.source = [] := by
  simp only [Parser.obs, List.append_eq_nil, List.map_eq_nil_iff] at h
  exact h

theorem Parser.take_next_nil {p : Parser} (h : p.source = []) :
    p.take_next = .ok (none, p) := by
  simp [Parser.take_next, h]

theorem Parser.take_next_okb {p : Parser} {b : Nat} {rest}
    (h : p.source = .ok b :: rest) :
    p.take_next = .ok (some (Char.ofNat b), { p with source := rest }) := by
  simp [Parser.take_next, h]

theorem Parser.take_next_err {p : Parser} {e : String} {rest}
    (h : p.source = .error e :: rest) :
    p.take_next = .error (.panicked ("source stream produced an error: " ++ e)) := by
  simp [Parser.take_next, h]

theorem Parser.peek_cons {p : Parser} {c : Char} {t} (h : p.peeked = c :: t) :
    p.peek = .ok (some c, p) := by
  simp [Parser.peek, h]

theorem Parser.peek_fetch {p : Parser} {b : Nat} {rest}
    (h1 : p.peeked = []) (h2 : p.source = .ok b :: rest) :
    p.peek = .ok (some (Char.ofNat b),
      { source := rest, peeked := [Char.ofNat b],
        peeked_container := p.peeked_container }) := by
  simp [Parser.peek, h1, Parser.take_next_okb h2]

theorem Parser.peek_nil {p : Parser} (h1 : p.peeked = []) (h2 : p.source = []) :
    p.peek = .ok (none, p) := by
  simp [Parser.peek, h1, Parser.take_next_nil h2]

theorem Parser.peek_err {p : Parser} {e : String} {rest}
    (h1 : p.peeked = []) (h2 : p.source = .error e :: rest) :
    p.peek = .error (.panicked ("source stream produced an error: " ++ e)) := by
  simp [Parser.peek, h1, Parser.take_next_err h2]

theorem Parser.next_cons {p : Parser} {c : Char} {t} (h : p.peeked = c :: t) :
    p.next = .ok (some c, { p with peeked := t }) := by
  simp [Parser.next, h]

theorem Parser.next_of_nil_peeked {p : Parser} (h : p.peeked = []) :
    p.next = p.take_next := by
  simp [Parser.next, h]

theorem Parser.obs_cases {p : Parser} {x : Except String Char}
    {t : List (Except String Char)} (h : p.obs = x :: t) :
    (∃ c t', x = .ok c ∧ p.peeked = c :: t' ∧
        t = t'.map Except.ok ++ p.source.map (Except.map Char.ofNat)) ∨
    (∃ b rest, p.peeked = [] ∧ p.source = .ok b :: rest ∧
        x = .ok (Char.ofNat b) ∧ t = rest.map (Except.map Char.ofNat)) ∨
    (∃ e rest, p.peeked = [] ∧ p.source = .error e :: rest ∧
        x = .error e ∧ t = rest.map (Except.map Char.ofNat)) := by
  rcases hp : p.peeked with _ | ⟨c', t'⟩
  · rcases hs : p.source with _ | ⟨y, rest⟩
    · simp [Parser.obs, hp, hs] at h
    · rcases y with e | b
      · refine Or.inr (Or.inr ⟨e, rest, rfl, rfl, ?_, ?_⟩) <;>
        · simp only [Parser.obs, hp, hs, List.map_nil, List.nil_append,
            List.map_cons, Except.map] at h
          simp_all
      · refine Or.inr (Or.inl ⟨b, rest, rfl, rfl, ?_, ?_⟩) <;>
        · simp only [Parser.obs, hp, hs, List.map_nil, List.nil_append,
            List.map_cons, Except.map] at h
          simp_all
  · refine Or.inl ⟨c', t', ?_, rfl, ?_⟩ <;>
    · simp only [Parser.obs, hp, List.map_cons, List.cons_append] at h
      simp_all [Parser.obs]

theorem Parser.next_obs_cons {p : Parser} {c : Char} {t} (h : p.obs = .ok c :: t) :
    ∃ p', p.next = .ok (some c, p') ∧ p'.obs = t ∧
      p'.peeked_container = p.peeked_container := by
  rcases Parser.obs_cases h with ⟨c0, t', hx, hp, ht⟩ | ⟨b, rest, hp, hs, hx, ht⟩ |
    ⟨e, rest, hp, hs, hx, ht⟩
  · obtain rfl : c0 = c := by simpa using hx.symm
    exact ⟨{ p with peeked := t' }, Parser.next_cons hp, by
      simp [Parser.obs, ht], rfl⟩
  · obtain rfl : Char.ofNat b = c := by simpa using hx.symm
    refine ⟨{ p with source := rest }, ?_, by simp [Parser.obs, hp, ht], rfl⟩
    rw [Parser.next_of_nil_peeked hp, Parser.take_next_okb hs]
  · simp at hx

theorem Parser.next_obs_nil {p : Parser} (h : p.obs = []) :
    p.next = .ok (none, p) := by
  obtain ⟨h1, h2⟩ := Parser.obs_eq_nil h
  rw [Parser.next_of_nil_peeked h1, Parser.take_next_nil h2]

theorem Parser.next_obs_err {p : Parser} {e : String} {t}
    (h : p.obs = .error e :: t) :
    p.next = .error (.panicked ("source stream produced an error: " ++ e)) := by
  rcases Parser.obs_cases h with ⟨c0, t', hx, hp, ht⟩ | ⟨b, rest, hp, hs, hx, ht⟩ |
    ⟨e', rest, hp, hs, hx, ht⟩
  · simp at hx
  · simp at hx
  · obtain rfl : e' = e := by simpa using hx.symm
    rw [Parser.next_of_nil_peeked hp, Parser.take_next_err hs]

theorem Parser.peek_obs_cons {p : Parser} {c : Char} {t} (h : p.obs = .ok c :: t) :
    ∃ p', p.peek = .ok (some c, p') ∧ p'.obs = p.obs ∧
      (∃ t', p'.peeked = c :: t') ∧
      p'.peeked_container = p.peeked_container := by
  rcases Parser.obs_cases h with ⟨c0, t', hx, hp, ht⟩ | ⟨b, rest, hp, hs, hx, ht⟩ |
    ⟨e, rest, hp, hs, hx, ht⟩
  · obtain rfl : c0 = c := by simpa using hx.symm
    exact ⟨p, Parser.peek_cons hp, rfl, ⟨t', hp⟩, rfl⟩
  · obtain rfl : Char.ofNat b = c := by simpa using hx.symm
    refine ⟨_, Parser.peek_fetch hp hs, ?_, ⟨[], rfl⟩, rfl⟩
    simp [Parser.obs, hp, hs, Except.map]
  · simp at hx

theorem Parser.peek_obs_nil {p : Parser} (h : p.obs = []) :
    p.peek = .ok (none, p) := by
  obtain ⟨h1, h2⟩ := Parser.obs_eq_nil h
  exact Parser.peek_nil h1 h2

theorem Parser.peek_obs_err {p : Parser} {e : String} {t}
    (h : p.obs = .error e :: t) :
    p.peek = .error (.panicked ("source stream produced an error: " ++ e)) := by
  rcases Parser.obs_cases h with ⟨c0, t', hx, hp, ht⟩ | ⟨b, rest, hp, hs, hx, ht⟩ |
    ⟨e', rest, hp, hs, hx, ht⟩
  · simp at hx
  · simp at hx
  · obtain rfl : e' = e := by simpa using hx.symm
    exact Parser.peek_err hp hs

/-! ## Conditional consumption: `next_if` and `next_if_eq` -/

theorem Parser.next_if_eq_as_next_if (p : Parser) (c : Char) :
    p.next_if_eq c = p.next_if (fun a => a == c) := by
  rcases hpk : p.peek with e | ⟨r, p₁⟩
  · simp [Parser.next_if, Parser.next_if_eq, hpk]
  · rcases r with _ | a
    · simp [Parser.next_if, Parser.next_if_eq, hpk]
    · simp only [Parser.next_if, Parser.next_if_eq, hpk]

theorem Parser.next_if_obs_true {p : Parser} {f : Char → Bool} {c : Char} {t}
    (h : p.obs = .ok c :: t) (hf : f c = true) :
    ∃ p', p.next_if f = .ok (some c, p') ∧ p'.obs = t ∧
      p'.peeked_container = p.peeked_container := by
  obtain ⟨p₁, hpk, hobs, ⟨t', hpeeked⟩, hcont⟩ := Parser.peek_obs_cons h
  refine ⟨{ p₁ with peeked := t' }, ?_, ?_, hcont⟩
  · simp [Parser.next_if, hpk, hf, hpeeked]
  · have h1 : p₁.obs = Except.ok c :: t := by rw [hobs, h]
    rw [Parser.obs, hpeeked, List.map_cons, List.cons_append,
      List.cons.injEq] at h1
    simpa [Parser.obs] using h1.2

theorem Parser.next_if_obs_false {p : Parser} {f : Char → Bool} {c : Char} {t}
    (h : p.obs = .ok c :: t) (hf : f c = false) :
    ∃ p', p.next_if f = .ok (none, p') ∧ p'.obs = p.obs ∧
      (∃ t', p'.peeked = c :: t') ∧
      p'.peeked_container = p.peeked_container := by
  obtain ⟨p₁, hpk, hobs, hpeeked, hcont⟩ := Parser.peek_obs_cons h
  exact ⟨p₁, by simp [Parser.next_if, hpk, hf], hobs, hpeeked, hcont⟩

theorem Parser.next_if_obs_nil {p : Parser} {f : Char → Bool} (h : p.obs = []) :
    p.next_if f = .ok (none, p) := by
  simp [Parser.next_if, Parser.peek_obs_nil h]

theorem Parser.next_if_obs_err {p : Parser} {f : Char → Bool} {e : String} {t}
    (h : p.obs = .error e :: t) :
    p.next_if f = .error (.panicked ("source stream produced an error: " ++ e)) := by
  simp [Parser.next_if, Parser.peek_obs_err h]

/-! ## Inversion lemmas: from an operation's result back to the stream -/

theorem Parser.peek_ok_inv {p : Parser} {r : Option Char} {p' : Parser}
    (h : p.peek = .ok (r, p')) :
    p'.obs = p.obs ∧ p'.peeked_container = p.peeked_container ∧
      ((r = none ∧ p' = p ∧ p.obs = []) ∨
       (∃ c t', r = some c ∧ p'.peeked = c :: t')) := by
  rcases hobs : p.obs with _ | ⟨x, t⟩
  · rw [Parser.peek_obs_nil hobs] at h
    simp only [Except.ok.injEq, Prod.mk.injEq] at h
    obtain ⟨rfl, rfl⟩ := h
    exact ⟨hobs, rfl, Or.inl ⟨rfl, rfl, rfl⟩⟩
  · rcases x with e | c
    · rw [Parser.peek_obs_err hobs] at h
      cases h
    · obtain ⟨p₁, hpk, hobs1, ⟨t', ht'⟩, hcont⟩ := Parser.peek_obs_cons hobs
      rw [hpk] at h
      simp only [Except.ok.injEq, Prod.mk.injEq] at h
      obtain ⟨rfl, rfl⟩ := h
      exact ⟨hobs1.trans hobs, hcont, Or.inr ⟨c, t', rfl, ht'⟩⟩

theorem Parser.next_ok_inv {p : Parser} {r : Option Char} {p' : Parser}
    (h : p.next = .ok (r, p')) :
    p'.peeked_container = p.peeked_container ∧
      ((r = none ∧ p' = p ∧ p.obs = []) ∨
       (∃ c, r = some c ∧ p.obs = .ok c :: p'.obs)) := by
  rcases hobs : p.obs with _ | ⟨x, t⟩
  · rw [Parser.next_obs_nil hobs] at h
    simp only [Except.ok.injEq, Prod.mk.injEq] at h
    obtain ⟨rfl, rfl⟩ := h
    exact ⟨rfl, Or.inl ⟨rfl, rfl, rfl⟩⟩
  · rcases x with e | c
    · rw [Parser.next_obs_err hobs] at h
      cases h
    · obtain ⟨p₁, hnx, hobs1, hcont⟩ := Parser.next_obs_cons hobs
      rw [hnx] at h
      simp only [Except.ok.injEq, Prod.mk.injEq] at h
      obtain ⟨rfl, rfl⟩ := h
      exact ⟨hcont, Or.inr ⟨c, rfl, by rw [hobs1]⟩⟩

theorem Parser.next_if_ok_inv {p : Parser} {f : Char → Bool} {r : Option Char}
    {p' : Parser} (h : p.next_if f = .ok (r, p')) :
    p'.peeked_container = p.peeked_container ∧
      ((r = none ∧ p'.obs = p.obs) ∨
       (∃ c, r = some c ∧ f c = true ∧ p.obs = .ok c :: p'.obs)) := by
  rcases hobs : p.obs with _ | ⟨x, t⟩
  · rw [Parser.next_if_obs_nil hobs] at h
    simp only [Except.ok.injEq, Prod.mk.injEq] at h
    obtain ⟨rfl, rfl⟩ := h
    exact ⟨rfl, Or.inl ⟨rfl, hobs⟩⟩
  · rcases x with e | c
    · rw [Parser.next_if_obs_err hobs] at h
      cases h
    · rcases hf : f c with _ | _
      · obtain ⟨p₁, hni, hobs1, _, hcont⟩ := Parser.next_if_obs_false hobs hf
        rw [hni] at h
        simp only [Except.ok.injEq, Prod.mk.injEq] at h
        obtain ⟨rfl, rfl⟩ := h
        exact ⟨hcont, Or.inl ⟨rfl, hobs1.trans hobs⟩⟩
      · obtain ⟨p₁, hni, hobs1, hcont⟩ := Parser.next_if_obs_true hobs hf
        rw [hni] at h
        simp only [Except.ok.injEq, Prod.mk.injEq] at h
        obtain ⟨rfl, rfl⟩ := h
        exact ⟨hcont, Or.inr ⟨c, rfl, hf, by rw [hobs1]⟩⟩

theorem Parser.next_if_some_size {p : Parser} {f : Char → Bool} {c : Char}
    {p' : Parser} (h : p.next_if f = .ok (some c, p')) :
    p'.size + 1 = p.size := by
  rcases (Parser.next_if_ok_inv h).2 with ⟨hn, _⟩ | ⟨c', _, _, hobs⟩
  · cases hn
  · have := congrArg List.length hobs
    simpa [Parser.obs_length] using this.symm

theorem Parser.next_if_eq_some_size {p : Parser} {c a : Char} {p' : Parser}
    (h : p.next_if_eq c = .ok (some a, p')) :
    p'.size + 1 = p.size := by
  rw [Parser.next_if_eq_as_next_if] at h
  exact Parser.next_if_some_size h

/-! ## Buffer pre-fetching: `fillPeeked` and `peek_n` -/

theorem Parser.peeked_of_obs {p : Parser} {cs : List Char}
    (h : p.obs = cs.map Except.ok) : p.peeked = cs.take p.peeked.length := by
  have h1 : p.obs.take p.peeked.length = p.peeked.map Except.ok := by
    simp only [Parser.obs]
    rw [List.take_append_of_le_length (by simp)]
    simp
  rw [h, ← List.map_take] at h1
  have : Function.Injective (Except.ok : Char → Except String Char) := by
    intro a b hab
    simpa using hab
  exact (List.map_injective_iff.mpr this h1).symm

theorem Parser.peeked_length_le {p : Parser} {cs : List Char}
    (h : p.obs = cs.map Except.ok) : p.peeked.length ≤ cs.length := by
  have := Parser.obs_length p
  rw [h] at this
  simp only [List.length_map] at this
  simp [Parser.size] at this
  omega

theorem Parser.source_ok_of_obs {p : Parser} {cs : List Char}
    (h : p.obs = cs.map Except.ok) :
    ∀ x ∈ p.source, ∃ b, x = Except.ok b := by
  intro x hx
  have hmem : Except.map Char.ofNat x ∈ p.obs := by
    simp only [Parser.obs, List.mem_append, List.mem_map]
    exact Or.inr ⟨x, hx, rfl⟩
  rw [h] at hmem
  simp only [List.mem_map] at hmem
  obtain ⟨c, _, hc⟩ := hmem
  rcases x with e | b
  · simp [Except.map] at hc
  · exact ⟨b, rfl⟩

theorem Parser.fillPeeked_ok_inv : ∀ {k : Nat} {p p' : Parser},
    p.fillPeeked k = .ok p' →
    p'.obs = p.obs ∧ p'.peeked_container = p.peeked_container ∧
      (∃ new, p'.peeked = p.peeked ++ new ∧ new.length ≤ k) ∧
      (p'.peeked.length = p.peeked.length + k ∨ p'.source = []) := by
  intro k
  induction k with
  | zero =>
    intro p p' h
    simp only [Parser.fillPeeked] at h
    obtain rfl : p = p' := by simpa using h
    exact ⟨rfl, rfl, ⟨[], by simp⟩, Or.inl rfl⟩
  | succ k ih =>
    intro p p' h
    rcases hs : p.source with _ | ⟨x, rest⟩
    · rw [Parser.fillPeeked, Parser.take_next_nil hs] at h
      obtain rfl : p = p' := by simpa using h
      exact ⟨rfl, rfl, ⟨[], by simp⟩, Or.inr hs⟩
    · rcases x with e | b
      · rw [Parser.fillPeeked, Parser.take_next_err hs] at h
        cases h
      · rw [Parser.fillPeeked, Parser.take_next_okb hs] at h
        obtain ⟨hobs, hcont, ⟨new, hnew, hlen⟩, hor⟩ := ih h
        refine ⟨?_, hcont, ⟨Char.ofNat b :: new, by simpa using hnew, by simpa using hlen⟩, ?_⟩
        · rw [hobs]
          simp [Parser.obs, hs, Except.map]
        · rcases hor with hl | hr
          · left
            rw [hl]
            simp
            omega
          · right
            exact hr

theorem Parser.fillPeeked_ok_of_obs : ∀ {k : Nat} {p : Parser} {cs : List Char},
    p.obs = cs.map Except.ok → ∃ p', p.fillPeeked k = .ok p' := by
  intro k
  induction k with
  | zero =>
    intro p cs h
    exact ⟨p, by simp [Parser.fillPeeked]⟩
  | succ k ih =>
    intro p cs h
    rcases hs : p.source with _ | ⟨x, rest⟩
    · exact ⟨p, by rw [Parser.fillPeeked, Parser.take_next_nil hs]⟩
    · obtain ⟨b, rfl⟩ := Parser.source_ok_of_obs h x
        (by rw [hs]; exact List.mem_cons_self _ _)
      have hq : Parser.obs ⟨rest, p.peeked ++ [Char.ofNat b], p.peeked_container⟩ =
          cs.map Except.ok := by
        rw [← h]
        simp [Parser.obs, hs, Except.map]
      obtain ⟨p', hp'⟩ := ih (p := ⟨rest, p.peeked ++ [Char.ofNat b], p.peeked_container⟩) hq
      refine ⟨p', ?_⟩
      rw [Parser.fillPeeked, Parser.take_next_okb hs]
      exact hp'

theorem Parser.peek_n_ok_inv {p : Parser} {n : Nat} {s : String} {p' : Parser}
    (h : p.peek_n n = .ok (s, p')) :
    p'.obs = p.obs ∧ s.data = p'.peeked.take n ∧ p'.peeked_container = s ∧
      (∃ new, p'.peeked = p.peeked ++ new) ∧
      (n ≤ p'.peeked.length ∨ p'.source = []) := by
  rcases hf : p.fillPeeked (n - p.peeked.length) with e | p₁
  · rw [Parser.peek_n, hf] at h
    cases h
  · rw [Parser.peek_n, hf] at h
    simp only [Except.ok.injEq, Prod.mk.injEq] at h
    obtain ⟨rfl, rfl⟩ := h
    obtain ⟨hobs, hcont, ⟨new, hnew, _⟩, hor⟩ := Parser.fillPeeked_ok_inv hf
    refine ⟨hobs, by simp, rfl, ⟨new, by simpa using hnew⟩, ?_⟩
    rcases hor with hl | hr
    · left
      simp only
      omega
    · right
      exact hr

theorem Parser.peek_n_spec {p : Parser} {n : Nat} {cs : List Char}
    (h : p.obs = cs.map Except.ok) :
    ∃ p', p.peek_n n = .ok (String.mk (cs.take n), p') ∧
      p'.obs = cs.map Except.ok ∧
      p'.peeked.length = min (max p.peeked.length n) cs.length ∧
      p'.peeked_container = String.mk (cs.take n) := by
  obtain ⟨p₁, hf⟩ := Parser.fillPeeked_ok_of_obs (k := n - p.peeked.length) h
  obtain ⟨hobs, hcont, ⟨new, hnew, hlen⟩, hor⟩ := Parser.fillPeeked_ok_inv hf
  have hobs1 : p₁.obs = cs.map Except.ok := by rw [hobs, h]
  have hple : p.peeked.length ≤ cs.length := Parser.peeked_length_le h
  have hp1le : p₁.peeked.length ≤ cs.length := Parser.peeked_length_le hobs1
  have hlen1 : p₁.peeked.length = min (max p.peeked.length n) cs.length := by
    rcases hor with hl | hr
    · rw [hl]
      have := congrArg List.length hnew
      simp at this
      omega
    · have : p₁.size = cs.length := by
        have h2 := Parser.obs_length p₁
        rw [hobs1] at h2
        simpa using h2.symm
      have hsz : p₁.peeked.length = cs.length := by
        simp [Parser.size, hr] at this
        exact this
      have hnl : new.length ≤ n - p.peeked.length := hlen
      have := congrArg List.length hnew
      simp at this
      omega
  have hpeeked : p₁.peeked = cs.take p₁.peeked.length := Parser.peeked_of_obs hobs1
  have htake : p₁.peeked.take n = cs.take n := by
    rw [hpeeked, List.take_take]
    rw [List.take_eq_take]
    omega
  refine ⟨{ p₁ with peeked_container := String.mk (p₁.peeked.take n) }, ?_, ?_, ?_, ?_⟩
  · rw [Parser.peek_n, hf]
    simp [htake]
  · simpa [Parser.obs] using hobs1
  · simpa using hlen1
  · simp [htake]

/-! ## Bulk consumption: `skip` and the fueled loops -/

theorem Parser.skip_ok_inv : ∀ {n : Nat} {p p' : Parser}, p.skip n = .ok p' →
    ∃ k, k ≤ n ∧ p'.obs = p.obs.drop k ∧
      p'.peeked_container = p.peeked_container := by
  intro n
  induction n with
  | zero =>
    intro p p' h
    obtain rfl : p = p' := by simpa [Parser.skip] using h
    exact ⟨0, by simp⟩
  | succ n ih =>
    intro p p' h
    rcases hn : p.next with e | ⟨r, q⟩
    · rw [Parser.skip, hn] at h
      cases h
    · rw [Parser.skip, hn] at h
      obtain ⟨hcont, hca⟩ := Parser.next_ok_inv hn
      obtain ⟨k, hk, hobs, hcont2⟩ := ih h
      rcases hca with ⟨_, rfl, hnil⟩ | ⟨c, _, hcons⟩
      · exact ⟨k, by omega, hobs, hcont2⟩
      · exact ⟨k + 1, by omega, by rw [hobs, hcons]; rfl,
          hcont2.trans hcont⟩

theorem Parser.skip_spec : ∀ {n : Nat} {p : Parser} {cs : List Char},
    p.obs = cs.map Except.ok →
    ∃ p', p.skip n = .ok p' ∧ p'.obs = (cs.drop n).map Except.ok ∧
      p'.peeked_container = p.peeked_container := by
  intro n
  induction n with
  | zero =>
    intro p cs h
    exact ⟨p, by simp [Parser.skip], by simpa using h, rfl⟩
  | succ n ih =>
    intro p cs h
    rcases cs with _ | ⟨c, cs'⟩
    · have hnil : p.obs = [] := by simpa using h
      obtain ⟨p', h1, h2, h3⟩ := @ih p [] (by simpa using h)
      exact ⟨p', by rw [Parser.skip, Parser.next_obs_nil hnil]; exact h1,
        by simpa using h2, h3⟩
    · have hc : p.obs = .ok c :: cs'.map Except.ok := by simpa using h
      obtain ⟨q, hq, hqobs, hqcont⟩ := Parser.next_obs_cons hc
      obtain ⟨p', h1, h2, h3⟩ := @ih q cs' hqobs
      exact ⟨p', by rw [Parser.skip, hq]; exact h1, by simpa using h2,
        h3.trans hqcont⟩

theorem Parser.skipEqFuel_ok_inv : ∀ {fuel : Nat} {c : Char} {p p' : Parser},
    Parser.skipEqFuel c fuel p = .ok p' →
    ∃ k, p'.obs = p.obs.drop k ∧ p'.peeked_container = p.peeked_container := by
  intro fuel
  induction fuel with
  | zero =>
    intro c p p' h
    obtain rfl : p = p' := by simpa [Parser.skipEqFuel] using h
    exact ⟨0, by simp⟩
  | succ fuel ih =>
    intro c p p' h
    rcases hn : p.next_if_eq c with e | ⟨r, q⟩
    · rw [Parser.skipEqFuel, hn] at h
      cases h
    · rw [Parser.next_if_eq_as_next_if] at hn
      obtain ⟨hcont, hca⟩ := Parser.next_if_ok_inv hn
      rcases r with _ | a
      · rw [Parser.skipEqFuel, Parser.next_if_eq_as_next_if, hn] at h
        obtain rfl : q = p' := by simpa using h
        rcases hca with ⟨_, hobs⟩ | ⟨_, hs, _⟩
        · exact ⟨0, by simpa using hobs, hcont⟩
        · cases hs
      · rw [Parser.skipEqFuel, Parser.next_if_eq_as_next_if, hn] at h
        obtain ⟨k, hobs, hcont2⟩ := ih h
        rcases hca with ⟨hnone, _⟩ | ⟨c', _, _, hcons⟩
        · cases hnone
        · exact ⟨k + 1, by rw [hobs, hcons]; rfl, hcont2.trans hcont⟩

theorem Parser.skipIfFuel_ok_inv : ∀ {fuel : Nat} {f : Char → Bool} {p p' : Parser},
    Parser.skipIfFuel f fuel p = .ok p' →
    ∃ k, p'.obs = p.obs.drop k ∧ p'.peeked_container = p.peeked_container := by
  intro fuel
  induction fuel with
  | zero =>
    intro f p p' h
    obtain rfl : p = p' := by simpa [Parser.skipIfFuel] using h
    exact ⟨0, by simp⟩
  | succ fuel ih =>
    intro f p p' h
    rcases hn : p.next_if f with e | ⟨r, q⟩
    · rw [Parser.skipIfFuel, hn] at h
      cases h
    · obtain ⟨hcont, hca⟩ := Parser.next_if_ok_inv hn
      rcases r with _ | a
      · rw [Parser.skipIfFuel, hn] at h
        obtain rfl : q = p' := by simpa using h
        rcases hca with ⟨_, hobs⟩ | ⟨_, hs, _⟩
        · exact ⟨0, by simpa using hobs, hcont⟩
        · cases hs
      · rw [Parser.skipIfFuel, hn] at h
        obtain ⟨k, hobs, hcont2⟩ := ih h
        rcases hca with ⟨hnone, _⟩ | ⟨c', _, _, hcons⟩
        · cases hnone
        · exact ⟨k + 1, by rw [hobs, hcons]; rfl, hcont2.trans hcont⟩

theorem Parser.digitsFuel_ok_inv : ∀ {fuel : Nat} {p : Parser} {acc s : List Char}
    {p' : Parser}, Parser.digitsFuel fuel p acc = .ok (s, p') →
    ∃ k, p'.obs = p.obs.drop k ∧ p'.peeked_container = p.peeked_container := by
  intro fuel
  induction fuel with
  | zero =>
    intro p acc s p' h
    obtain ⟨rfl, rfl⟩ : acc = s ∧ p = p' := by
      simpa [Parser.digitsFuel] using h
    exact ⟨0, by simp⟩
  | succ fuel ih =>
    intro p acc s p' h
    rcases hn : p.next_if (fun c => c.isDigit) with e | ⟨r, q⟩
    · rw [Parser.digitsFuel, hn] at h
      cases h
    · obtain ⟨hcont, hca⟩ := Parser.next_if_ok_inv hn
      rcases r with _ | a
      · rw [Parser.digitsFuel, hn] at h
        obtain ⟨rfl, rfl⟩ : acc = s ∧ q = p' := by simpa using h
        rcases hca with ⟨_, hobs⟩ | ⟨_, hs, _⟩
        · exact ⟨0, by simpa using hobs, hcont⟩
        · cases hs
      · rw [Parser.digitsFuel, hn] at h
        obtain ⟨k, hobs, hcont2⟩ := ih h
        rcases hca with ⟨hnone, _⟩ | ⟨c', _, _, hcons⟩
        · cases hnone
        · exact ⟨k + 1, by rw [hobs, hcons]; rfl, hcont2.trans hcont⟩

theorem Parser.digitsFuel_spec : ∀ {ds : List Char} {rest : List Char}
    {p : Parser} {acc : List Char} {fuel : Nat},
    p.obs = ((ds ++ rest).map Except.ok) →
    (∀ c ∈ ds, c.isDigit = true) →
    (∀ r, rest.head? = some r → r.isDigit = false) →
    ds.length < fuel →
    ∃ p', Parser.digitsFuel fuel p acc = .ok (acc ++ ds, p') ∧
      p'.obs = rest.map Except.ok := by
  intro ds
  induction ds with
  | nil =>
    intro rest p acc fuel h _ hrest hfuel
    rcases fuel with _ | f
    · omega
    rcases rest with _ | ⟨r, t⟩
    · have hnil : p.obs = [] := by simpa using h
      exact ⟨p, by rw [Parser.digitsFuel, Parser.next_if_obs_nil hnil]; simp,
        by simpa using hnil⟩
    · have hc : p.obs = .ok r :: t.map Except.ok := by simpa using h
      obtain ⟨p₁, hni, hobs, _, _⟩ :=
        Parser.next_if_obs_false hc (hrest r rfl)
      exact ⟨p₁, by rw [Parser.digitsFuel, hni]; simp,
        by rw [hobs, hc]; simp⟩
  | cons d ds ih =>
    intro rest p acc fuel h hds hrest hfuel
    rcases fuel with _ | f
    · omega
    have hc : p.obs = .ok d :: ((ds ++ rest).map Except.ok) := by simpa using h
    obtain ⟨p₁, hni, hobs, _⟩ :=
      Parser.next_if_obs_true hc (hds d (List.mem_cons_self _ _))
    obtain ⟨p', h1, h2⟩ := @ih rest p₁ (acc ++ [d]) f hobs
      (fun c hcm => hds c (List.mem_cons_of_mem _ hcm)) hrest (by simpa using hfuel)
    refine ⟨p', ?_, h2⟩
    rw [Parser.digitsFuel, hni]
    simpa using h1

/-! ## `integer`: parsing lemmas -/

theorem isDigit_ne_dash {c : Char} (h : c.isDigit = true) : c ≠ '-' := by
  intro hc
  rw [hc] at h
  simp [Char.isDigit] at h

theorem isDigit_ne_plus {c : Char} (h : c.isDigit = true) : c ≠ '+' := by
  intro hc
  rw [hc] at h
  simp [Char.isDigit] at h

theorem parseI32_digits {ds : List Char} (h1 : ds ≠ [])
    (h2 : ∀ c ∈ ds, c.isDigit = true) (h3 : digitsVal ds ≤ 2147483647) :
    parseI32 ds = some ((digitsVal ds : Int)) := by
  rcases ds with _ | ⟨d, t⟩
  · exact absurd rfl h1
  have hd : d.isDigit = true := h2 d (List.mem_cons_self _ _)
  rw [parseI32]
  rw [if_neg (isDigit_ne_dash hd), if_neg (isDigit_ne_plus hd)]
  rw [if_pos (by simpa [List.all_eq_true] using h2), if_pos h3]

theorem parseI32_neg {ds : List Char} (h1 : ds ≠ [])
    (h2 : ∀ c ∈ ds, c.isDigit = true) (h3 : digitsVal ds ≤ 2147483648) :
    parseI32 ('-' :: ds) = some (-(digitsVal ds : Int)) := by
  rw [parseI32, if_pos rfl]
  rw [if_pos ⟨h1, by simpa [List.all_eq_true] using h2⟩, if_pos h3]

theorem Parser.integer_none {p : Parser} {c : Char} {t}
    (h : p.obs = .ok c :: t) (h1 : c.isDigit = false) (h2 : (c == '-') = false) :
    ∃ p', p.integer = .ok (none, p') ∧ p'.obs = p.obs ∧
      p'.peeked_container = p.peeked_container := by
  obtain ⟨p₁, hni, hobs, _, hcont⟩ :=
    Parser.next_if_obs_false (f := fun c => c.isDigit || c == '-') h
      (by simp [h1, h2])
  exact ⟨p₁, by rw [Parser.integer, hni], hobs, hcont⟩

theorem Parser.integer_ok_inv {p : Parser} {r : Option Int} {p' : Parser}
    (h : p.integer = .ok (r, p')) :
    ∃ k, p'.obs = p.obs.drop k ∧ p'.peeked_container = p.peeked_container := by
  rcases hn : p.next_if (fun c => c.isDigit || c == '-') with e | ⟨r₁, q⟩
  · rw [Parser.integer, hn] at h
    cases h
  · obtain ⟨hcont, hca⟩ := Parser.next_if_ok_inv hn
    rcases r₁ with _ | c
    · rw [Parser.integer, hn] at h
      obtain ⟨rfl, rfl⟩ : none = r ∧ q = p' := by simpa using h
      rcases hca with ⟨_, hobs⟩ | ⟨_, hs, _⟩
      · exact ⟨0, by simpa using hobs, hcont⟩
      · cases hs
    · rw [Parser.integer] at h
      simp only [hn] at h
      rcases hca with ⟨hnone, _⟩ | ⟨c', hc', _, hcons⟩
      · cases hnone
      · rcases hd : Parser.digitsFuel (q.size + 1) q [c] with e | ⟨s, p₂⟩
        · simp only [hd] at h
          exact Except.noConfusion h
        · simp only [hd] at h
          obtain ⟨k, hobs, hcont2⟩ := Parser.digitsFuel_ok_inv hd
          rcases hp : parseI32 s with _ | v
          · simp only [hp] at h
            exact Except.noConfusion h
          · simp only [hp] at h
            obtain ⟨rfl, rfl⟩ : some v = r ∧ p₂ = p' := by simpa using h
            refine ⟨k + 1, ?_, hcont2.trans hcont⟩
            rw [hobs, hcons]
            rfl

theorem Parser.integer_spec_pos {p : Parser} {ds rest : List Char}
    (h : p.obs = (ds ++ rest).map Except.ok)
    (hne : ds ≠ []) (hds : ∀ c ∈ ds, c.isDigit = true)
    (hrest : ∀ r, rest.head? = some r → r.isDigit = false)
    (hbound : digitsVal ds ≤ 2147483647) :
    ∃ p', p.integer = .ok (some ((digitsVal ds : Int)), p') ∧
      p'.obs = rest.map Except.ok := by
  rcases ds with _ | ⟨d, ds'⟩
  · exact absurd rfl hne
  have hd : d.isDigit = true := hds d (List.mem_cons_self _ _)
  have hc : p.obs = .ok d :: ((ds' ++ rest).map Except.ok) := by simpa using h
  obtain ⟨p₁, hni, hobs, _⟩ :=
    Parser.next_if_obs_true (f := fun c => c.isDigit || c == '-') hc
      (by simp [hd])
  have hsz : ds'.length < p₁.size + 1 := by
    have hl := Parser.obs_length p₁
    rw [hobs] at hl
    simp at hl
    omega
  obtain ⟨p₂, hdf, hobs2⟩ := @Parser.digitsFuel_spec ds' rest p₁ [d] (p₁.size + 1) hobs
    (fun c hcm => hds c (List.mem_cons_of_mem _ hcm)) hrest hsz
  refine ⟨p₂, ?_, hobs2⟩
  rw [Parser.integer]
  simp only [hni, hdf, List.singleton_append]
  rw [parseI32_digits hne hds hbound]

theorem Parser.integer_spec_neg {p : Parser} {ds rest : List Char}
    (h : p.obs = ('-' :: (ds ++ rest)).map Except.ok)
    (hne : ds ≠ []) (hds : ∀ c ∈ ds, c.isDigit = true)
    (hrest : ∀ r, rest.head? = some r → r.isDigit = false)
    (hbound : digitsVal ds ≤ 2147483648) :
    ∃ p', p.integer = .ok (some (-(digitsVal ds : Int)), p') ∧
      p'.obs = rest.map Except.ok := by
  have hc : p.obs = .ok '-' :: ((ds ++ rest).map Except.ok) := by simpa using h
  obtain ⟨p₁, hni, hobs, _⟩ :=
    Parser.next_if_obs_true (f := fun c => c.isDigit || c == '-') hc (by simp)
  have hsz : ds.length < p₁.size + 1 := by
    have hl := Parser.obs_length p₁
    rw [hobs] at hl
    simp at hl
    omega
  obtain ⟨p₂, hdf, hobs2⟩ := @Parser.digitsFuel_spec ds rest p₁ ['-'] (p₁.size + 1) hobs
    hds hrest hsz
  refine ⟨p₂, ?_, hobs2⟩
  rw [Parser.integer]
  simp only [hni, hdf, List.singleton_append]
  rw [parseI32_neg hne hds hbound]

/-! ## UTF-8 byte-level facts used by `take_matching` -/

theorem char_toNat_inj {a b : Char} (h : a.toNat = b.toNat) : a = b := by
  have h2 := congrArg Char.ofNat h
  rwa [Char.ofNat_toNat, Char.ofNat_toNat] at h2

theorem utf8Bytes_ascii {c : Char} (h : c.toNat < 128) :
    utf8Bytes c = [c.toNat] := by
  simp [utf8Bytes, h]

theorem utf8Bytes_head (c : Char) :
    ∃ b bs, utf8Bytes c = b :: bs ∧ (c.toNat < 128 → b = c.toNat) ∧
      (128 ≤ c.toNat → 128 ≤ b) := by
  by_cases h1 : c.toNat < 128
  · exact ⟨c.toNat, [], by simp [utf8Bytes, h1], fun _ => rfl, by omega⟩
  · by_cases h2 : c.toNat < 2048
    · refine ⟨192 + c.toNat / 64, [128 + c.toNat % 64],
        by simp [utf8Bytes, h1, h2], fun h => absurd h h1, fun _ => by omega⟩
    · by_cases h3 : c.toNat < 65536
      · refine ⟨224 + c.toNat / 4096, [128 + c.toNat / 64 % 64, 128 + c.toNat % 64],
          by simp [utf8Bytes, h1, h2, h3], fun h => absurd h h1, fun _ => by omega⟩
      · refine ⟨240 + c.toNat / 262144,
          [128 + c.toNat / 4096 % 64, 128 + c.toNat / 64 % 64, 128 + c.toNat % 64],
          by simp [utf8Bytes, h1, h2, h3], fun h => absurd h h1, fun _ => by omega⟩

theorem strBytes_cons (c : Char) (t : List Char) :
    strBytes (c :: t) = utf8Bytes c ++ strBytes t := by
  simp [strBytes]

theorem strBytes_append (a b : List Char) :
    strBytes (a ++ b) = strBytes a ++ strBytes b := by
  simp [strBytes]

theorem strBytes_ascii {cs : List Char} (h : ∀ c ∈ cs, c.toNat < 128) :
    strBytes cs = cs.map Char.toNat := by
  induction cs with
  | nil => rfl
  | cons c t ih =>
    rw [strBytes_cons, utf8Bytes_ascii (h c (List.mem_cons_self _ _)),
      ih (fun x hx => h x (List.mem_cons_of_mem _ hx))]
    rfl

theorem strBytes_get_cons {xs : List Char} (x : Char) (t : List Char)
    (h : ∀ c ∈ xs, c.toNat < 128) :
    ∃ b bs, utf8Bytes x = b :: bs ∧
      (strBytes (xs ++ x :: t)).get? xs.length = some b ∧
      (x.toNat < 128 → b = x.toNat) ∧ (128 ≤ x.toNat → 128 ≤ b) := by
  obtain ⟨b, bs, hx, hlt, hge⟩ := utf8Bytes_head x
  refine ⟨b, bs, hx, ?_, hlt, hge⟩
  rw [strBytes_append, strBytes_cons, hx]
  rw [strBytes_ascii h, List.get?_eq_getElem?,
    List.getElem?_append_right (by simp)]
  simp

/-! ## `take_matching`: candidate matching against the stream -/

theorem Parser.matchLoop_spec : ∀ (d : List Char) (i : Nat) (p : Parser)
    (cs : List Char), p.obs = cs.map Except.ok →
    (∀ c ∈ d, c.toNat < 128) →
    (∀ c ∈ cs.take i, c.toNat < 128) →
    ∃ p', p.matchLoop i (d.map Char.toNat) =
        .ok (if leadsWith d (cs.drop i) then some (i + d.length) else none, p') ∧
      p'.obs = cs.map Except.ok := by
  intro d
  induction d with
  | nil =>
    intro i p cs h _ _
    exact ⟨p, by simp [Parser.matchLoop, leadsWith], h⟩
  | cons e d' ih =>
    intro i p cs h hd hpre
    obtain ⟨p₁, hpk, hobs1, _, _⟩ := Parser.peek_n_spec (n := i + 1) h
    by_cases hi : i < cs.length
    · have htk : cs.take (i + 1) = cs.take i ++ [cs[i]] := by
        rw [List.take_succ]
        simp [List.getElem?_eq_getElem hi]
      have hdrop : cs.drop i = cs[i] :: cs.drop (i + 1) :=
        List.drop_eq_getElem_cons hi
      obtain ⟨b, bs, hub, hget, hblt, hbge⟩ :=
        @strBytes_get_cons (cs.take i) (cs[i]) [] hpre
      have hlen : (cs.take i).length = i := by
        simp [List.length_take]
        omega
      rw [hlen] at hget
      have hget2 : (strBytes (cs.take (i + 1))).get? i = some b := by
        rw [htk]
        exact hget
      have hea : e.toNat < 128 := hd e (List.mem_cons_self _ _)
      by_cases hx : e = cs[i]
      · have hcsi : cs[i].toNat < 128 := by rw [← hx]; exact hea
        have hbeq : b = e.toNat := by rw [hblt hcsi, ← hx]
        have hcond : (strBytes (cs.take (i + 1))).get? i = some e.toNat := by
          rw [hget2, hbeq]
        have hpre' : ∀ c ∈ cs.take (i + 1), c.toNat < 128 := by
          intro c hc
          rw [htk] at hc
          rcases List.mem_append.mp hc with h1 | h1
          · exact hpre c h1
          · simp at h1
            rw [h1]
            exact hcsi
        obtain ⟨p', hml, hobs'⟩ := ih (i + 1) p₁ cs hobs1
          (fun c hc => hd c (List.mem_cons_of_mem _ hc)) hpre'
        refine ⟨p', ?_, hobs'⟩
        rw [List.map_cons, Parser.matchLoop]
        simp only [hpk]
        rw [if_pos hcond, hml, hdrop, ← hx]
        simp only [leadsWith, beq_self_eq_true, Bool.true_and, List.length_cons]
        have harith : i + 1 + d'.length = i + (d'.length + 1) := by omega
        rw [harith]
      · have hbneq : ¬((strBytes (cs.take (i + 1))).get? i = some e.toNat) := by
          rw [hget2]
          intro hcon
          have hb : b = e.toNat := by simpa using hcon
          by_cases hcsi : cs[i].toNat < 128
          · have hcn : cs[i].toNat = e.toNat := by rw [← hblt hcsi, hb]
            exact hx (char_toNat_inj hcn).symm
          · have := hbge (by omega)
            omega
        refine ⟨p₁, ?_, hobs1⟩
        rw [List.map_cons, Parser.matchLoop]
        simp only [hpk]
        rw [if_neg hbneq, hdrop]
        have hne : (e == cs[i]) = false := by simp [hx]
        simp [leadsWith, hne]
    · have hile : cs.length ≤ i := by omega
      have htk1 : cs.take (i + 1) = cs := List.take_of_length_le (by omega)
      have htki : cs.take i = cs := List.take_of_length_le hile
      have hcsascii : ∀ c ∈ cs, c.toNat < 128 := by
        rw [← htki]
        exact hpre
      have hnone : (strBytes (cs.take (i + 1))).get? i = none := by
        rw [htk1, strBytes_ascii hcsascii, List.get?_eq_getElem?]
        rw [List.getElem?_eq_none (by simpa using hile)]
      have hfalse : ¬((strBytes (cs.take (i + 1))).get? i = some e.toNat) := by
        rw [hnone]
        simp
      refine ⟨p₁, ?_, hobs1⟩
      rw [List.map_cons, Parser.matchLoop]
      simp only [hpk]
      rw [if_neg hfalse, List.drop_eq_nil_of_le hile]
      simp [leadsWith]

theorem Parser.take_matching_spec : ∀ (v : List String) (p : Parser)
    (cs : List Char), p.obs = cs.map Except.ok →
    (∀ s ∈ v, ∀ c ∈ s.data, c.toNat < 128) →
    ∃ p', p.take_matching v = .ok (specTakeMatching cs v, p') ∧
      p'.obs = (cs.drop (specMatchedLen cs v)).map Except.ok := by
  intro v
  induction v with
  | nil =>
    intro p cs h _
    exact ⟨p, by simp [Parser.take_matching, specTakeMatching],
      by simpa [specMatchedLen, specTakeMatching] using h⟩
  | cons s rest ih =>
    intro p cs h hv
    have hs : ∀ c ∈ s.data, c.toNat < 128 := hv s (List.mem_cons_self _ _)
    have hsb : strBytes s.data = s.data.map Char.toNat := strBytes_ascii hs
    obtain ⟨p₁, hml, hobs1⟩ := Parser.matchLoop_spec s.data 0 p cs h hs (by simp)
    by_cases hlw : leadsWith s.data cs = true
    · rw [if_pos (by simpa using hlw)] at hml
      obtain ⟨p₂, hsk, hobs2, _⟩ := Parser.skip_spec (n := 0 + s.data.length) hobs1
      have hstm : specTakeMatching cs (s :: rest) = some s := by
        rw [specTakeMatching]
        exact List.find?_cons_of_pos _ (by simpa using hlw)
      have hsml : specMatchedLen cs (s :: rest) = s.data.length := by
        unfold specMatchedLen
        rw [hstm]
      refine ⟨p₂, ?_, ?_⟩
      · rw [Parser.take_matching, hsb]
        simp only [hml, hsk]
        rw [hstm]
      · rw [hobs2, hsml]
        simp
    · rw [if_neg (by simpa using hlw)] at hml
      obtain ⟨p', htm, hobs'⟩ := ih p₁ cs hobs1
        (fun t ht => hv t (List.mem_cons_of_mem _ ht))
      have hstm : specTakeMatching cs (s :: rest) = specTakeMatching cs rest := by
        rw [specTakeMatching, specTakeMatching]
        exact List.find?_cons_of_neg _ (by simpa using hlw)
      have hsml : specMatchedLen cs (s :: rest) = specMatchedLen cs rest := by
        unfold specMatchedLen
        rw [hstm]
      refine ⟨p', ?_, ?_⟩
      · rw [Parser.take_matching, hsb]
        simp only [hml]
        rw [htm, hstm]
      · rw [hobs', hsml]

/-! ## General inversion lemmas for the derived operations -/

theorem Parser.matchLoop_ok_inv : ∀ {bs : List Nat} {p : Parser} {i : Nat}
    {r : Option Nat} {p' : Parser}, p.matchLoop i bs = .ok (r, p') →
    p'.obs = p.obs := by
  intro bs
  induction bs with
  | nil =>
    intro p i r p' h
    obtain ⟨rfl, rfl⟩ : some i = r ∧ p = p' := by
      simpa [Parser.matchLoop] using h
    rfl
  | cons b bs ih =>
    intro p i r p' h
    rcases hpk : p.peek_n (i + 1) with e | ⟨s, q⟩
    · rw [Parser.matchLoop, hpk] at h
      cases h
    · obtain ⟨hobs, _, _, _, _⟩ := Parser.peek_n_ok_inv hpk
      rw [Parser.matchLoop] at h
      simp only [hpk] at h
      by_cases hc : (strBytes s.data).get? i = some b
      · rw [if_pos hc] at h
        exact (ih h).trans hobs
      · rw [if_neg hc] at h
        obtain ⟨rfl, rfl⟩ : none = r ∧ q = p' := by simpa using h
        exact hobs

theorem Parser.take_matching_ok_inv : ∀ {v : List String} {p : Parser}
    {r : Option String} {p' : Parser}, p.take_matching v = .ok (r, p') →
    ∃ k, p'.obs = p.obs.drop k := by
  intro v
  induction v with
  | nil =>
    intro p r p' h
    obtain ⟨rfl, rfl⟩ : none = r ∧ p = p' := by
      simpa [Parser.take_matching] using h
    exact ⟨0, by simp⟩
  | cons s rest ih =>
    intro p r p' h
    rcases hml : p.matchLoop 0 (strBytes s.data) with e | ⟨r₁, q⟩
    · rw [Parser.take_matching, hml] at h
      cases h
    · have hobs := Parser.matchLoop_ok_inv hml
      rw [Parser.take_matching] at h
      simp only [hml] at h
      rcases r₁ with _ | n
      · obtain ⟨k, hk⟩ := ih h
        exact ⟨k, by rw [hk, hobs]⟩
      · rcases hsk : q.skip n with e | p₂
        · simp only [hsk] at h
          exact Except.noConfusion h
        · simp only [hsk] at h
          obtain ⟨rfl, rfl⟩ : some s = r ∧ p₂ = p' := by simpa using h
          obtain ⟨k, _, hk, _⟩ := Parser.skip_ok_inv hsk
          exact ⟨k, by rw [hk, hobs]⟩

theorem Parser.skip_if_eq_ok_inv {p p' : Parser} {c : Char}
    (h : p.skip_if_eq c = .ok p') :
    ∃ k, p'.obs = p.obs.drop k ∧ p'.peeked_container = p.peeked_container :=
  Parser.skipEqFuel_ok_inv h

theorem Parser.skip_if_ok_inv {p p' : Parser} {f : Char → Bool}
    (h : p.skip_if f = .ok p') :
    ∃ k, p'.obs = p.obs.drop k ∧ p'.peeked_container = p.peeked_container :=
  Parser.skipIfFuel_ok_inv h

theorem Parser.next_integer_ok_inv {p : Parser} {r : Option Int} {p' : Parser}
    (h : p.next_integer = .ok (r, p')) :
    ∃ k, p'.obs = p.obs.drop k := by
  rcases hsk : p.skip_if_eq ' ' with e | q
  · rw [Parser.next_integer, hsk] at h
    cases h
  · rw [Parser.next_integer, hsk] at h
    obtain ⟨k₁, hk₁, _⟩ := Parser.skip_if_eq_ok_inv hsk
    obtain ⟨k₂, hk₂, _⟩ := Parser.integer_ok_inv h
    exact ⟨k₁ + k₂, by rw [hk₂, hk₁, List.drop_drop, Nat.add_comm]⟩

theorem Parser.take_newline_ok_inv {p : Parser} {r : Option Unit} {p' : Parser}
    (h : p.take_newline = .ok (r, p')) :
    ∃ k, p'.obs = p.obs.drop k := by
  rcases hsk : p.skip_if_eq ' ' with e | q
  · rw [Parser.take_newline, hsk] at h
    cases h
  · rw [Parser.take_newline] at h
    simp only [hsk] at h
    obtain ⟨k₁, hk₁, _⟩ := Parser.skip_if_eq_ok_inv hsk
    rcases hn : q.next_if_eq '\n' with e | ⟨r₁, p₂⟩
    · simp only [hn] at h
      exact Except.noConfusion h
    · simp only [hn] at h
      obtain ⟨rfl, rfl⟩ : r₁.map (fun _ => ()) = r ∧ p₂ = p' := by
        simpa using h
      rw [Parser.next_if_eq_as_next_if] at hn
      obtain ⟨_, hca⟩ := Parser.next_if_ok_inv hn
      rcases hca with ⟨_, hobs⟩ | ⟨c, _, _, hcons⟩
      · exact ⟨k₁, by rw [hobs, hk₁]⟩
      · refine ⟨k₁ + 1, ?_⟩
        have : q.obs.drop 1 = p₂.obs := by rw [hcons]; rfl
        rw [← this, hk₁, List.drop_drop, Nat.add_comm]

theorem Parser.eof_ok_inv {p : Parser} {r : Option Unit} {p' : Parser}
    (h : p.eof = .ok (r, p')) :
    ∃ k, p'.obs = p.obs.drop k := by
  rcases hsk : p.skip_if_eq ' ' with e | q
  · rw [Parser.eof, hsk] at h
    cases h
  · rw [Parser.eof] at h
    simp only [hsk] at h
    obtain ⟨k₁, hk₁, _⟩ := Parser.skip_if_eq_ok_inv hsk
    rcases hn : q.peek with e | ⟨r₁, p₂⟩
    · simp only [hn] at h
      exact Except.noConfusion h
    · obtain ⟨hobs, _, _⟩ := Parser.peek_ok_inv hn
      rcases r₁ with _ | c
      · simp only [hn] at h
        obtain ⟨rfl, rfl⟩ : some () = r ∧ p₂ = p' := by simpa using h
        exact ⟨k₁, by rw [hobs, hk₁]⟩
      · simp only [hn] at h
        obtain ⟨rfl, rfl⟩ : none = r ∧ p₂ = p' := by simpa using h
        exact ⟨k₁, by rw [hobs, hk₁]⟩

/-! ## Draining a fresh cursor -/

theorem Parser.nexts_new_spec : ∀ (bs : List Nat),
    (Parser.new (bs.map Except.ok)).nexts bs.length =
      .ok (bs.map Char.ofNat, Parser.new []) := by
  intro bs
  induction bs with
  | nil => rfl
  | cons b t ih =>
    have hnx : (Parser.new (Except.ok b :: t.map Except.ok)).next =
        .ok (some (Char.ofNat b), Parser.new (t.map Except.ok)) := by
      rw [Parser.next_of_nil_peeked rfl]
      exact Parser.take_next_okb rfl
    simp only [List.map_cons, List.length_cons, Parser.nexts]
    simp only [hnx, ih]

theorem Parser.nexts_empty : ∀ (k : Nat),
    (Parser.new []).nexts k = .ok ([], Parser.new []) := by
  intro k
  cases k with
  | zero => rfl
  | succ k => rfl

theorem Parser.fillPeeked_of_source_nil {p : Parser} (h : p.source = [])
    (k : Nat) : p.fillPeeked k = .ok p := by
  cases k with
  | zero => rfl
  | succ k => rw [Parser.fillPeeked, Parser.take_next_nil h]

/-! ## The claims -/

/-- C1: for every finite, error-free byte sequence, building a cursor over it
and calling `next()` repeatedly yields exactly the bytes decoded one byte to
one character, in source order, and afterwards `None` on every subsequent
call (the drained state is a fixed point that keeps answering `None`). -/
theorem claim_C1 (bs : List Nat) (h : ∀ b ∈ bs, b < 256) :
    (Parser.new (bs.map Except.ok)).nexts bs.length =
      .ok (bs.map Char.ofNat, Parser.new []) ∧
    ∀ k, (Parser.new []).nexts k = .ok ([], Parser.new []) :=
  ⟨Parser.nexts_new_spec bs, Parser.nexts_empty⟩

theorem claim_C1_witness :
    (Parser.new ([104, 105].map Except.ok)).nexts [104, 105].length =
      .ok ([104, 105].map Char.ofNat, Parser.new []) :=
  (claim_C1 [104, 105] (by decide)).1

/-- C2 counterexample: on a source whose first item is a read error, `peek`
does not return the error as a result to its immediate caller - the
operation aborts with the panic raised inside `take_next`, so no
`(result, state)` pair is ever produced. -/
theorem claim_C2_counterexample :
    (Parser.new [Except.error "boom"]).peek =
      .error (.panicked ("source stream produced an error: " ++ "boom")) := by
  decide

/-- C2 (amended): the primitive that first observes a read error (`peek` or
`next` at an empty buffer) panics with the error message - exactly once, at
the point of first observation, without retrying and without producing any
advanced state - while characters already buffered are returned before the
error can be observed, unaffected by it. -/
theorem claim_C2 (p : Parser) (e : String) (rest : List (Except String Nat))
    (hs : p.source = .error e :: rest) :
    (p.peeked = [] →
      p.peek = .error (.panicked ("source stream produced an error: " ++ e)) ∧
      p.next = .error (.panicked ("source stream produced an error: " ++ e))) ∧
    (∀ c t, p.peeked = c :: t →
      p.peek = .ok (some c, p) ∧
      p.next = .ok (some c, { p with peeked := t })) :=
  ⟨fun hp => ⟨Parser.peek_err hp hs, by
      rw [Parser.next_of_nil_peeked hp]
      exact Parser.take_next_err hs⟩,
   fun c t hp => ⟨Parser.peek_cons hp, Parser.next_cons hp⟩⟩

theorem claim_C2_witness :
    (Parser.new [Except.error "x"]).peek =
      .error (.panicked ("source stream produced an error: " ++ "x")) :=
  ((claim_C2 (Parser.new [Except.error "x"]) "x" [] rfl).1 rfl).1

/-- C3: the code does not report numeric overflow as an error distinct from
`None` - on the digit run "2147483648" (one past `i32::MAX`) the parse
inside `integer` fails and `unwrap_unchecked` reaches its `Err` branch,
which is undefined behaviour, for both `integer` and `next_integer`. -/
theorem claim_C3 :
    (parser_for "2147483648").integer = .error .undefinedBehavior ∧
    (parser_for "2147483648").next_integer = .error .undefinedBehavior := by
  constructor
  · decide
  · decide

/-- C4: the accumulated string does not always parse - when the first
consumed character is `-` and the next is not an ASCII digit, `integer`
accumulates exactly "-", whose `i32` parse fails, so `unwrap_unchecked`
reaches its `Err` branch (undefined behaviour); likewise for a lone `-` at
the end of input. -/
theorem claim_C4 :
    (parser_for "-a").integer = .error .undefinedBehavior ∧
    (parser_for "-").integer = .error .undefinedBehavior := by
  constructor
  · decide
  · decide

/-- C5: `peek` is idempotent - a repeated `peek` returns the same result and
state, the observable stream does not advance, and the `next` immediately
after returns the same value, consuming exactly that one character. -/
theorem claim_C5 (p : Parser) (r : Option Char) (p' : Parser)
    (h : p.peek = .ok (r, p')) :
    p'.peek = .ok (r, p') ∧ p'.obs = p.obs ∧
    (r = none → p'.next = .ok (none, p')) ∧
    (∀ c, r = some c → ∃ p'', p'.next = .ok (some c, p'') ∧
      p'.obs = .ok c :: p''.obs) := by
  obtain ⟨hobs, hcont, hca⟩ := Parser.peek_ok_inv h
  rcases hca with ⟨rfl, rfl, hnil⟩ | ⟨c, t', rfl, hp⟩
  · refine ⟨h, rfl, fun _ => Parser.next_obs_nil hnil, ?_⟩
    intro c hc
    cases hc
  · refine ⟨Parser.peek_cons hp, hobs, ?_, ?_⟩
    · intro hc
      cases hc
    · intro c' hc
      obtain rfl : c = c' := by simpa using hc
      exact ⟨{ p' with peeked := t' }, Parser.next_cons hp, by
        simp [Parser.obs, hp]⟩

theorem claim_C5_witness :
    (Parser.mk [] ['a'] "").peek = .ok (some 'a', Parser.mk [] ['a'] "") :=
  (claim_C5 (parser_for "a") (some 'a') (Parser.mk [] ['a'] "") (by decide)).1

/-- C6: after `peek_n n`, a subsequent `peek_n m` with `m ≤ n` returns
exactly the first `m` characters of the previous `n`-character window and
changes nothing but the reusable container - in particular it performs no
further source reads. -/
theorem claim_C6 (p : Parser) (n m : Nat) (s : String) (p₁ : Parser)
    (hmn : m ≤ n) (h : p.peek_n n = .ok (s, p₁)) :
    p₁.peek_n m = .ok (String.mk (s.data.take m),
      { p₁ with peeked_container := String.mk (s.data.take m) }) := by
  obtain ⟨hobs, hsdata, hcont, ⟨new, hnew⟩, hor⟩ := Parser.peek_n_ok_inv h
  have hfid : p₁.fillPeeked (m - p₁.peeked.length) = .ok p₁ := by
    rcases hor with hge | hsrc
    · have hz : m - p₁.peeked.length = 0 := by omega
      rw [hz]
      rfl
    · exact Parser.fillPeeked_of_source_nil hsrc _
  have hsm : p₁.peeked.take m = s.data.take m := by
    rw [hsdata, List.take_take]
    congr 1
    omega
  rw [Parser.peek_n]
  simp only [hfid, hsm]

theorem claim_C6_witness :
    (Parser.mk [Except.ok 108, Except.ok 111] ['h', 'e', 'l'] "hel").peek_n 2 =
      .ok (String.mk (("hel" : String).data.take 2),
        { Parser.mk [Except.ok 108, Except.ok 111] ['h', 'e', 'l'] "hel" with
          peeked_container := String.mk (("hel" : String).data.take 2) }) :=
  claim_C6 (parser_for "hello") 3 2 "hel"
    (Parser.mk [Except.ok 108, Except.ok 111] ['h', 'e', 'l'] "hel")
    (by decide) (by decide)

/-- C7 counterexample: for a non-ASCII candidate the matched consumption is
not the candidate's length in characters - `take_matching` matches on UTF-8
bytes and then skips the candidate's byte count in characters.  Candidate
"é" has 1 character (2 bytes, [195, 169]); on the 3-character stream decoded
from bytes [233, 97, 98] (characters 'é', 'a', 'b') it returns `some "é"`
yet leaves a 1-character stream: 2 characters were consumed, not 1. -/
theorem claim_C7_counterexample :
    (Parser.new [Except.ok 233, Except.ok 97, Except.ok 98]).take_matching
        ["é"] = .ok (some "é", Parser.mk [Except.ok 98] [] "éa") ∧
    ("é" : String).data.length = 1 ∧
    (Parser.new [Except.ok 233, Except.ok 97, Except.ok 98]).obs.length = 3 ∧
    (Parser.mk [Except.ok 98] [] "éa").obs.length = 1 := by
  refine ⟨by decide, by decide, by decide, by decide⟩

/-- C7 (amended): for candidate lists of ASCII literals - candidate bytes
coincide with candidate characters; every candidate list in the repository
is ASCII - `take_matching` tries the candidates in list order and behaves as
the spec-level reference matcher: it returns the first candidate whose
characters match the upcoming stream, consuming exactly that candidate's
length, and returns `None` consuming nothing when no candidate matches;
concretely, on "twofold" with candidates ["one", "two"] it returns "two",
consumes exactly 3 characters and leaves "fold" (with "two" in the reusable
container).  (For a non-ASCII candidate the code instead consumes the
candidate's UTF-8 byte count in characters - the counterexample above.) -/
theorem claim_C7 :
    (∀ (p : Parser) (v : List String) (cs : List Char),
      p.obs = cs.map Except.ok →
      (∀ s ∈ v, ∀ c ∈ s.data, c.toNat < 128) →
      ∃ p', p.take_matching v = .ok (specTakeMatching cs v, p') ∧
        p'.obs = (cs.drop (specMatchedLen cs v)).map Except.ok) ∧
    (parser_for "twofold").take_matching ["one", "two"] =
      .ok (some "two",
        Parser.mk (("fold" : String).data.map (fun c => Except.ok c.toNat)) [] "two") := by
  constructor
  · exact fun p v cs h hv => Parser.take_matching_spec v p cs h hv
  · decide

theorem claim_C7_witness :
    Except.map Prod.fst ((parser_for "twofold").take_matching ["one", "two"]) =
      .ok (specTakeMatching ("twofold" : String).data ["one", "two"]) := by
  obtain ⟨p', h1, _⟩ := claim_C7.1 (parser_for "twofold") ["one", "two"]
    ("twofold" : String).data (by decide) (by decide)
  rw [h1]
  rfl

/-- C8: `integer` optionally consumes a leading `-`, then one or more ASCII
digits, and parses the run numerically (value `digitsVal`, negated under the
sign); when the first character is neither a digit nor `-` it returns `None`
without consuming; concretely "0001" parses to 1, "-5" to -5, and "abc"
yields `None` with the stream untouched (only 'a' moved into the buffer). -/
theorem claim_C8 :
    (∀ (p : Parser) (c : Char) (t : List (Except String Char)),
      p.obs = .ok c :: t → c.isDigit = false → (c == '-') = false →
      ∃ p', p.integer = .ok (none, p') ∧ p'.obs = p.obs) ∧
    (∀ (p : Parser) (ds rest : List Char),
      p.obs = (ds ++ rest).map Except.ok → ds ≠ [] →
      (∀ c ∈ ds, c.isDigit = true) →
      (∀ r, rest.head? = some r → r.isDigit = false) →
      digitsVal ds ≤ 2147483647 →
      ∃ p', p.integer = .ok (some ((digitsVal ds : Int)), p') ∧
        p'.obs = rest.map Except.ok) ∧
    (∀ (p : Parser) (ds rest : List Char),
      p.obs = ('-' :: (ds ++ rest)).map Except.ok → ds ≠ [] →
      (∀ c ∈ ds, c.isDigit = true) →
      (∀ r, rest.head? = some r → r.isDigit = false) →
      digitsVal ds ≤ 2147483648 →
      ∃ p', p.integer = .ok (some (-(digitsVal ds : Int)), p') ∧
        p'.obs = rest.map Except.ok) ∧
    (parser_for "0001").integer = .ok (some 1, Parser.new []) ∧
    (parser_for "-5").integer = .ok (some (-5), Parser.new []) ∧
    (parser_for "abc").integer =
      .ok (none, Parser.mk [Except.ok 98, Except.ok 99] ['a'] "") := by
  refine ⟨?_, ?_, ?_, by decide, by decide, by decide⟩
  · intro p c t h h1 h2
    obtain ⟨p', h3, h4, _⟩ := Parser.integer_none h h1 h2
    exact ⟨p', h3, h4⟩
  · intro p ds rest h hne hds hrest hbound
    exact Parser.integer_spec_pos h hne hds hrest hbound
  · intro p ds rest h hne hds hrest hbound
    exact Parser.integer_spec_neg h hne hds hrest hbound

theorem claim_C8_witness :
    Except.map Prod.fst ((parser_for "abc").integer) =
      .ok (none : Option Int) := by
  obtain ⟨p', h1, _⟩ := claim_C8.1 (parser_for "abc") 'a'
    [Except.ok 'b', Except.ok 'c'] (by decide) (by decide) (by decide)
  rw [h1]
  rfl

/-- C9: when `next_if f` is called and `f` rejects the next available
character, it returns `None` and the cursor state is unchanged - the
following `peek` returns that same character and state, and `next` yields
the same value and observable stream as it would have before the call. -/
theorem claim_C9 (p : Parser) (f : Char → Bool) (c : Char) (p₁ : Parser)
    (h : p.peek = .ok (some c, p₁)) (hf : f c = false) :
    p.next_if f = .ok (none, p₁) ∧
    p₁.peek = .ok (some c, p₁) ∧
    (∃ p₂ p₃, p₁.next = .ok (some c, p₂) ∧ p.next = .ok (some c, p₃) ∧
      p₂.obs = p₃.obs) := by
  obtain ⟨hobs, hcont, hca⟩ := Parser.peek_ok_inv h
  rcases hca with ⟨hn, _, _⟩ | ⟨c', t', hc, hp⟩
  · cases hn
  · obtain rfl : c = c' := by simpa using hc
    refine ⟨by simp [Parser.next_if, h, hf], Parser.peek_cons hp, ?_⟩
    have h2 : p₁.next = .ok (some c, { p₁ with peeked := t' }) :=
      Parser.next_cons hp
    have h3 : p.obs = .ok c :: ({ p₁ with peeked := t' } : Parser).obs := by
      rw [← hobs]
      simp [Parser.obs, hp]
    obtain ⟨p₃, h4, h5, _⟩ := Parser.next_obs_cons h3
    exact ⟨{ p₁ with peeked := t' }, p₃, h2, h4, h5.symm⟩

theorem claim_C9_witness :
    (parser_for "a").next_if Char.isUpper = .ok (none, Parser.mk [] ['a'] "") :=
  (claim_C9 (parser_for "a") Char.isUpper 'a' (Parser.mk [] ['a'] "")
    (by decide) (by decide)).1

/-- C10: every operation preserves the lookahead-buffer invariant - the
buffer is always the initial run of the observable remaining stream (source
order, never reordered), each primitive returns the head of that stream when
it consumes, and every operation's successful result observes a stream that
is exactly the old stream with the consumed characters dropped from the
front. -/
theorem claim_C10 (p : Parser) :
    p.obs.take p.peeked.length = p.peeked.map Except.ok ∧
    (∀ r p', p.peek = .ok (r, p') → p'.obs = p.obs) ∧
    (∀ c p', p.next = .ok (some c, p') → p.obs = .ok c :: p'.obs) ∧
    (∀ p', p.next = .ok (none, p') → p' = p) ∧
    (∀ n s p', p.peek_n n = .ok (s, p') →
      p'.obs = p.obs ∧ s.data = p'.peeked.take n) ∧
    (∀ f c p', p.next_if f = .ok (some c, p') → p.obs = .ok c :: p'.obs) ∧
    (∀ f p', p.next_if f = .ok (none, p') → p'.obs = p.obs) ∧
    (∀ c a p', p.next_if_eq c = .ok (some a, p') → p.obs = .ok a :: p'.obs) ∧
    (∀ c p', p.next_if_eq c = .ok (none, p') → p'.obs = p.obs) ∧
    (∀ n p', p.skip n = .ok p' → ∃ k, k ≤ n ∧ p'.obs = p.obs.drop k) ∧
    (∀ c p', p.skip_if_eq c = .ok p' → ∃ k, p'.obs = p.obs.drop k) ∧
    (∀ f p', p.skip_if f = .ok p' → ∃ k, p'.obs = p.obs.drop k) ∧
    (∀ r p', p.integer = .ok (r, p') → ∃ k, p'.obs = p.obs.drop k) ∧
    (∀ r p', p.next_integer = .ok (r, p') → ∃ k, p'.obs = p.obs.drop k) ∧
    (∀ r p', p.take_newline = .ok (r, p') → ∃ k, p'.obs = p.obs.drop k) ∧
    (∀ r p', p.eof = .ok (r, p') → ∃ k, p'.obs = p.obs.drop k) ∧
    (∀ v r p', p.take_matching v = .ok (r, p') → ∃ k, p'.obs = p.obs.drop k) := by
  refine ⟨?_, ?_, ?_, ?_, ?_, ?_, ?_, ?_, ?_, ?_, ?_, ?_, ?_, ?_, ?_, ?_, ?_⟩
  · simp only [Parser.obs]
    rw [List.take_append_of_le_length (by simp)]
    simp
  · exact fun r p' h => (Parser.peek_ok_inv h).1
  · intro c p' h
    rcases (Parser.next_ok_inv h).2 with ⟨hn, _, _⟩ | ⟨c', hc, hcons⟩
    · cases hn
    · obtain rfl : c = c' := by simpa using hc
      exact hcons
  · intro p' h
    rcases (Parser.next_ok_inv h).2 with ⟨_, hp, _⟩ | ⟨c', hc, _⟩
    · exact hp
    · cases hc
  · intro n s p' h
    obtain ⟨h1, h2, _⟩ := Parser.peek_n_ok_inv h
    exact ⟨h1, h2⟩
  · intro f c p' h
    rcases (Parser.next_if_ok_inv h).2 with ⟨hn, _⟩ | ⟨c', hc, _, hcons⟩
    · cases hn
    · obtain rfl : c = c' := by simpa using hc
      exact hcons
  · intro f p' h
    rcases (Parser.next_if_ok_inv h).2 with ⟨_, hp⟩ | ⟨c', hc, _, _⟩
    · exact hp
    · cases hc
  · intro c a p' h
    rw [Parser.next_if_eq_as_next_if] at h
    rcases (Parser.next_if_ok_inv h).2 with ⟨hn, _⟩ | ⟨c', hc, _, hcons⟩
    · cases hn
    · obtain rfl : a = c' := by simpa using hc
      exact hcons
  · intro c p' h
    rw [Parser.next_if_eq_as_next_if] at h
    rcases (Parser.next_if_ok_inv h).2 with ⟨_, hp⟩ | ⟨c', hc, _, _⟩
    · exact hp
    · cases hc
  · intro n p' h
    obtain ⟨k, hk, hobs, _⟩ := Parser.skip_ok_inv h
    exact ⟨k, hk, hobs⟩
  · intro c p' h
    obtain ⟨k, hobs, _⟩ := Parser.skip_if_eq_ok_inv h
    exact ⟨k, hobs⟩
  · intro f p' h
    obtain ⟨k, hobs, _⟩ := Parser.skip_if_ok_inv h
    exact ⟨k, hobs⟩
  · intro r p' h
    obtain ⟨k, hobs, _⟩ := Parser.integer_ok_inv h
    exact ⟨k, hobs⟩
  · exact fun r p' h => Parser.next_integer_ok_inv h
  · exact fun r p' h => Parser.take_newline_ok_inv h
  · exact fun r p' h => Parser.eof_ok_inv h
  · exact fun v r p' h => Parser.take_matching_ok_inv h

theorem claim_C10_witness :
    (parser_for "ab").obs = .ok 'a' :: (Parser.mk [Except.ok 98] [] "").obs :=
  (claim_C10 (parser_for "ab")).2.2.1 'a' (Parser.mk [Except.ok 98] [] "")
    (by decide)
